import Mathlib

/-!
Shallow embedding of `src/events/attributes.rs` from quick-xml: the attribute
scanner (`Attributes`, an iterator producing `Attribute` key/value pairs from
the byte region of a start tag), together with the text conversion that
escapes values and the lazy unescaping of values.

Bytes are modelled as `Nat` (u8 values), byte buffers as `List Nat`.
Rust slice indexing `bytes[a..b]` is modelled by `sliceR`, which returns
`none` exactly when Rust would panic (out-of-bounds or inverted range), so a
`none` result of `Attributes.next` models a panic.
-/

/-- Modelled from the spec: the whitespace predicate `is_whitespace` lives in
the reader module, which is not among the sources; XML whitespace is space,
carriage return, line feed and tab. -/
def is_whitespace (b : Nat) : Bool :=
  b == 32 || b == 13 || b == 10 || b == 9

/-- The contents of the Rust slice `bs[a..b]`, meaningful when `a ≤ b ≤ bs.length`. -/
def listSlice (bs : List Nat) (a b : Nat) : List Nat :=
  (bs.take b).drop a

/-- Rust slice indexing `bs[a..b]` with its bounds check: `none` models a panic. -/
def sliceR (bs : List Nat) (a b : Nat) : Option (List Nat) :=
  if a ≤ b ∧ b ≤ bs.length then some (listSlice bs a b) else none

/-- Modelled from the spec: the error taxonomy lives in the errors module,
which is not among the sources; the four scan-time constructors are the ones
`attributes.rs` raises, each carrying absolute byte offsets. -/
inductive Error where
  | NameWithQuote : Nat → Error
  | DuplicatedAttribute : Nat → Nat → Error
  | NoEqAfterName : Nat → Error
  | UnquotedValue : Nat → Error
deriving DecidableEq

/-- A key/value pair for an xml attribute (struct `Attribute`); `value` stores
raw bytes, possibly containing escape sequences. -/
structure Attribute where
  key : List Nat
  value : List Nat
deriving DecidableEq

/-- The byte offsets from which one emitted `Attribute` was sliced:
`key = bytes[start_key..end_key]`, `value = bytes[start_val..end_val]`. -/
structure Span where
  start_key : Nat
  end_key : Nat
  start_val : Nat
  end_val : Nat
deriving DecidableEq

/-- Iterator over attributes key/value pairs (struct `Attributes`). -/
structure Attributes where
  bytes : List Nat
  position : Nat
  exit : Bool
  with_checks : Bool
  consumed : List (Nat × Nat)
deriving DecidableEq

instance {ε α : Type} [DecidableEq ε] [DecidableEq α] : DecidableEq (Except ε α) :=
  fun a b =>
    match a, b with
    | Except.ok x, Except.ok y =>
      if h : x = y then isTrue (by rw [h]) else isFalse (fun c => h (Except.ok.inj c))
    | Except.error x, Except.error y =>
      if h : x = y then isTrue (by rw [h]) else isFalse (fun c => h (Except.error.inj c))
    | Except.ok _, Except.error _ => isFalse (fun c => Except.noConfusion c)
    | Except.error _, Except.ok _ => isFalse (fun c => Except.noConfusion c)

/-- One outcome of `Iterator::next`: `done` is Rust's `None`,
`item` is `Some(Ok ...)` or `Some(Err ...)`. -/
inductive Step where
  | done : Step
  | item : Except Error (Attribute × Span) → Step
deriving DecidableEq

/-- `Attributes::new`: creates a new attribute iterator from a buffer. -/
def Attributes.new (buf : List Nat) (pos : Nat) : Attributes :=
  { bytes := buf, position := pos, exit := false, with_checks := true, consumed := [] }

/-- `Attributes::with_checks`: sets whether duplicate names are checked for. -/
def Attributes.withChecks (s : Attributes) (v : Bool) : Attributes :=
  { s with with_checks := v }

/-- The duplicate-name search
`self.consumed.iter().cloned().find(|r| &self.bytes[r] == &key)`:
`none` models the panic raised when a stored range is out of bounds,
`some none` is "no duplicate", `some (some r)` the first matching range. -/
def findDup (bs : List Nat) (key : List Nat) : List (Nat × Nat) → Option (Option (Nat × Nat))
  | [] => some none
  | r :: rest =>
    match sliceR bs r.1 r.2 with
    | none => none
    | some k2 => if k2 = key then some (some r) else findDup bs key rest

/-- Last stage of `Attributes::next`: the closing-quote search
`memchr(quote, &bytes[start_val..])` over the full remaining buffer, then the
emission `position = end_val + 1` with `key = bytes[start_key..end_key]` and
`value = bytes[start_val..end_val]`. -/
def Attributes.scanValueEnd (s : Attributes) (cons1 : List (Nat × Nat))
    (start_key end_key quote start_val : Nat) : Option (Step × Attributes) :=
  let len := s.bytes.length
  match sliceR s.bytes start_val len with
  | none => none
  | some w =>
    match w.findIdx? (fun b => b == quote) with
    | none => some (Step.done, { s with position := len, consumed := cons1 })
    | some n =>
      let end_val := start_val + n
      match sliceR s.bytes start_key end_key, sliceR s.bytes start_val end_val with
      | some kb, some vb =>
        some (Step.item (Except.ok
                ({ key := kb, value := vb },
                 { start_key := start_key, end_key := end_key,
                   start_val := start_val, end_val := end_val })),
              { s with position := end_val + 1, consumed := cons1 })
      | _, _ => none

/-- Stage of `Attributes::next` headed "value starts with a quote": the first
non-whitespace byte of `bytes[start_val..len-1]` must be `'` or `"`; any other
byte raises `UnquotedValue` at its absolute offset. -/
def Attributes.scanQuote (s : Attributes) (cons1 : List (Nat × Nat))
    (start_key end_key start_val : Nat) : Option (Step × Attributes) :=
  let len := s.bytes.length
  match sliceR s.bytes start_val (len - 1) with
  | none => none
  | some w =>
    match w.findIdx? (fun b => !is_whitespace b) with
    | none => some (Step.done, { s with position := len, consumed := cons1 })
    | some i =>
      let b := w.getD i 0
      if b == 39 || b == 34 then
        Attributes.scanValueEnd s cons1 start_key end_key b (start_val + i + 1)
      else
        some (Step.item (Except.error (Error.UnquotedValue (start_val + i))),
              { s with exit := true, consumed := cons1 })

/-- Stage of `Attributes::next` headed "values starts after =": the `=` search
`memchr(b'=', &bytes[end_key..len-1])`, and (under `with_checks`) the
`NoEqAfterName` validation of `bytes[end_key..start_val-1]`. -/
def Attributes.scanValue (s : Attributes) (cons1 : List (Nat × Nat))
    (start_key end_key : Nat) : Option (Step × Attributes) :=
  let len := s.bytes.length
  match sliceR s.bytes end_key (len - 1) with
  | none => none
  | some w =>
    match w.findIdx? (fun b => b == 61) with
    | none => some (Step.done, { s with position := len, consumed := cons1 })
    | some m =>
      let start_val := end_key + 1 + m
      if s.with_checks then
        match sliceR s.bytes end_key (start_val - 1) with
        | none => none
        | some w2 =>
          match w2.findIdx? (fun b => !is_whitespace b) with
          | some i => some (Step.item (Except.error (Error.NoEqAfterName (end_key + i))),
                            { s with exit := true, consumed := cons1 })
          | none => Attributes.scanQuote s cons1 start_key end_key start_val
      else Attributes.scanQuote s cons1 start_key end_key start_val

/-- Stage of `Attributes::next` guarded by `if self.with_checks`: rejects a
name containing a quote (`NameWithQuote`), then a name byte-equal to an
already-consumed range (`DuplicatedAttribute`, carrying the current start and
the first-seen start), then records the range. -/
def Attributes.checksStage (s : Attributes) (start_key end_key : Nat) :
    Option (Step × Attributes) :=
  if s.with_checks then
    match sliceR s.bytes start_key end_key with
    | none => none
    | some kb =>
      match kb.findIdx? (fun b => b == 39 || b == 34) with
      | some i => some (Step.item (Except.error (Error.NameWithQuote (start_key + i))),
                        { s with exit := true })
      | none =>
        match findDup s.bytes kb s.consumed with
        | none => none
        | some (some r) =>
          some (Step.item (Except.error (Error.DuplicatedAttribute start_key r.1)),
                { s with exit := true })
        | some none =>
          Attributes.scanValue s (s.consumed ++ [(start_key, end_key)]) start_key end_key
  else Attributes.scanValue s s.consumed start_key end_key

/-- `<Attributes as Iterator>::next`: early-exits when `exit` is set or the
cursor reached the end; otherwise skips to the first whitespace byte, then to
the first non-whitespace byte (`start_key`), delimits the name at the first
`=` or whitespace (`end_key`), and hands over to the later stages.  Every
`None` return on a search failure first sets `position = len`. -/
def Attributes.next (s : Attributes) : Option (Step × Attributes) :=
  if s.exit then some (Step.done, s)
  else
    let len := s.bytes.length
    let p := s.position
    if len ≤ p then some (Step.done, s)
    else
      match sliceR s.bytes p (len - 1) with
      | none => none
      | some w1 =>
        match w1.findIdx? (fun b => is_whitespace b) with
        | none => some (Step.done, { s with position := len })
        | some i =>
          let sk0 := p + i + 1
          match sliceR s.bytes sk0 (len - 1) with
          | none => none
          | some w2 =>
            match w2.findIdx? (fun b => !is_whitespace b) with
            | none => some (Step.done, { s with position := len })
            | some j =>
              let start_key := sk0 + j
              match sliceR s.bytes (start_key + 1) (len - 1) with
              | none => none
              | some w3 =>
                match w3.findIdx? (fun b => b == 61 || is_whitespace b) with
                | none => some (Step.done, { s with position := len })
                | some k =>
                  Attributes.checksStage s start_key (start_key + 1 + k)

/-- Test driver: the items produced by iterating `next` at most `n` times,
stopping at the first `None` (or panic). -/
def Attributes.run (s : Attributes) : Nat → List (Except Error (Attribute × Span))
  | 0 => []
  | n + 1 =>
    match Attributes.next s with
    | some (Step.item r, s') => r :: Attributes.run s' n
    | _ => []

/-- Test driver: the scanner state after `n` calls to `next`. -/
def Attributes.stateN (s : Attributes) : Nat → Attributes
  | 0 => s
  | n + 1 =>
    match Attributes.next s with
    | some (_, s') => Attributes.stateN s' n
    | none => s

/-- Test driver: the spans of the successful attributes produced by iterating
`next` at most `n` times, stopping at the first error, `None` or panic. -/
def Attributes.spans (s : Attributes) : Nat → List Span
  | 0 => []
  | n + 1 =>
    match Attributes.next s with
    | some (Step.item (Except.ok (_, sp)), s') => sp :: Attributes.spans s' n
    | _ => []

/-- Modelled from the spec: the escape transform lives in the escape module,
which is not among the sources; it replaces each of the five xml special
bytes `&` `<` `>` `'` `"` by its named entity reference. -/
def escape_byte (b : Nat) : List Nat :=
  if b == 38 then [38, 97, 109, 112, 59]
  else if b == 60 then [38, 108, 116, 59]
  else if b == 62 then [38, 103, 116, 59]
  else if b == 39 then [38, 97, 112, 111, 115, 59]
  else if b == 34 then [38, 113, 117, 111, 116, 59]
  else [b]

/-- Modelled from the spec: byte-wise escaping of a whole buffer. -/
def escape : List Nat → List Nat
  | [] => []
  | b :: rest => escape_byte b ++ escape rest

/-- Modelled from the spec: the unescape transform (escape module, not among
the sources) resolves the five named entity references and fails (`none`) on
a malformed or unterminated reference. -/
def unescape : List Nat → Option (List Nat)
  | [] => some []
  | 38 :: 97 :: 109 :: 112 :: 59 :: r => (unescape r).map (fun t => 38 :: t)
  | 38 :: 108 :: 116 :: 59 :: r => (unescape r).map (fun t => 60 :: t)
  | 38 :: 103 :: 116 :: 59 :: r => (unescape r).map (fun t => 62 :: t)
  | 38 :: 97 :: 112 :: 111 :: 115 :: 59 :: r => (unescape r).map (fun t => 39 :: t)
  | 38 :: 113 :: 117 :: 111 :: 116 :: 59 :: r => (unescape r).map (fun t => 34 :: t)
  | 38 :: _ => none
  | b :: rest => (unescape rest).map (fun t => b :: t)

/-- `impl From<(&str, &str)> for Attribute`: the key is stored as-is, the
value is escaped. -/
def Attribute.from_text (k v : List Nat) : Attribute :=
  { key := k, value := escape v }

/-- `Attribute::unescaped_value`: unescapes the raw value. -/
def Attribute.unescaped_value (a : Attribute) : Option (List Nat) :=
  unescape a.value

/-! ### Basic facts about the slicing and searching primitives -/

theorem sliceR_eq_some {bs : List Nat} {a b : Nat} (h1 : a ≤ b) (h2 : b ≤ bs.length) :
    sliceR bs a b = some (listSlice bs a b) := by
  simp [sliceR, h1, h2]

theorem sliceR_eq_none_iff {bs : List Nat} {a b : Nat} :
    sliceR bs a b = none ↔ ¬(a ≤ b ∧ b ≤ bs.length) := by
  unfold sliceR
  split <;> simp_all

theorem listSlice_length {bs : List Nat} {a b : Nat} (h2 : b ≤ bs.length) :
    (listSlice bs a b).length = b - a := by
  simp [listSlice, Nat.min_eq_left h2]

theorem listSlice_getD {bs : List Nat} {a b i : Nat} (h1 : a + i < b) :
    (listSlice bs a b).getD i 0 = bs.getD (a + i) 0 := by
  simp only [listSlice, List.getD_eq_getElem?_getD, List.getElem?_drop]
  rw [List.getElem?_take_of_lt h1]

theorem findIdx?_facts {l : List Nat} {p : Nat → Bool} {i : Nat}
    (h : l.findIdx? p = some i) :
    i < l.length ∧ p (l.getD i 0) = true ∧ ∀ j, j < i → p (l.getD j 0) = false := by
  rw [List.findIdx?_eq_some_iff_getElem] at h
  obtain ⟨hl, hp, hb⟩ := h
  refine ⟨hl, ?_, fun j hj => ?_⟩
  · rw [List.getD_eq_getElem?_getD, List.getElem?_eq_getElem hl]
    simpa using hp
  · have hx := hb j hj
    rw [List.getD_eq_getElem?_getD, List.getElem?_eq_getElem (Nat.lt_trans hj hl)]
    simpa using hx

theorem findDup_none_bad {bs key : List Nat} {l : List (Nat × Nat)}
    (h : findDup bs key l = none) : ∃ r ∈ l, ¬(r.1 ≤ r.2 ∧ r.2 ≤ bs.length) := by
  induction l with
  | nil => simp [findDup] at h
  | cons r rest ih =>
    rw [findDup] at h
    rcases hs : sliceR bs r.1 r.2 with _ | k2
    · exact ⟨r, List.mem_cons_self _ _, sliceR_eq_none_iff.mp hs⟩
    · rw [hs] at h
      by_cases he : k2 = key
      · simp [he] at h
      · simp only [if_neg he] at h
        obtain ⟨r', hr', hbad⟩ := ih h
        exact ⟨r', List.mem_cons_of_mem _ hr', hbad⟩

/-! ### Shape of the results of the scanner stages -/

/-- The well-formedness invariant of the `consumed` list: every recorded range
is a valid range of the buffer. -/
def InvCons (s : Attributes) : Prop :=
  ∀ r ∈ s.consumed, r.1 ≤ r.2 ∧ r.2 ≤ s.bytes.length

/-- How one call of `next` may change the `consumed` list: unchanged, or with
one new in-bounds name range appended. -/
def consOk (s : Attributes) (c : List (Nat × Nat)) : Prop :=
  c = s.consumed ∨ ∃ sk ek, c = s.consumed ++ [(sk, ek)] ∧ sk < ek ∧ ek ≤ s.bytes.length

/-- The possible results of the stages of `next` that follow the name scan:
an end-of-sequence with the cursor moved to the end, an error with the sticky
`exit` flag set, or an emitted attribute whose spans sit between `end_key`
and the cursor's new position. -/
def tailOut (s : Attributes) (c : List (Nat × Nat)) (sk ek : Nat)
    (res : Option (Step × Attributes)) : Prop :=
  res = some (Step.done, { s with position := s.bytes.length, consumed := c }) ∨
  (∃ e, res = some (Step.item (Except.error e), { s with exit := true, consumed := c })) ∨
  (∃ sv ev, ek < sv ∧ sv ≤ ev ∧ ev < s.bytes.length ∧
    res = some (Step.item (Except.ok
      ({ key := listSlice s.bytes sk ek, value := listSlice s.bytes sv ev },
       { start_key := sk, end_key := ek, start_val := sv, end_val := ev })),
      { s with position := ev + 1, consumed := c }))

theorem scanValueEnd_tailOut (s : Attributes) (c : List (Nat × Nat)) (sk ek q sv : Nat)
    (hske : sk ≤ ek) (heksv : ek < sv) (hsvl : sv ≤ s.bytes.length) :
    tailOut s c sk ek (Attributes.scanValueEnd s c sk ek q sv) := by
  have hs1 : sliceR s.bytes sv s.bytes.length = some (listSlice s.bytes sv s.bytes.length) :=
    sliceR_eq_some hsvl (le_refl _)
  rcases hf : (listSlice s.bytes sv s.bytes.length).findIdx? (fun b => b == q) with _ | n
  · unfold Attributes.scanValueEnd
    simp only [hs1, hf]
    exact Or.inl rfl
  · have hn : n < s.bytes.length - sv := by
      have := (findIdx?_facts hf).1
      rwa [listSlice_length (le_refl _)] at this
    have hs2 : sliceR s.bytes sk ek = some (listSlice s.bytes sk ek) :=
      sliceR_eq_some hske (by omega)
    have hs3 : sliceR s.bytes sv (sv + n) = some (listSlice s.bytes sv (sv + n)) :=
      sliceR_eq_some (by omega) (by omega)
    refine Or.inr (Or.inr ⟨sv, sv + n, heksv, by omega, by omega, ?_⟩)
    unfold Attributes.scanValueEnd
    simp only [hs1, hf, hs2, hs3]

theorem scanQuote_tailOut (s : Attributes) (c : List (Nat × Nat)) (sk ek sv0 : Nat)
    (hske : sk ≤ ek) (heksv : ek < sv0) (hsv0 : sv0 ≤ s.bytes.length - 1) :
    tailOut s c sk ek (Attributes.scanQuote s c sk ek sv0) := by
  have hs1 : sliceR s.bytes sv0 (s.bytes.length - 1)
      = some (listSlice s.bytes sv0 (s.bytes.length - 1)) :=
    sliceR_eq_some hsv0 (Nat.sub_le _ _)
  rcases hf : (listSlice s.bytes sv0 (s.bytes.length - 1)).findIdx?
      (fun b => !is_whitespace b) with _ | i
  · unfold Attributes.scanQuote
    simp only [hs1, hf]
    exact Or.inl rfl
  · have hi : i < (s.bytes.length - 1) - sv0 := by
      have := (findIdx?_facts hf).1
      rwa [listSlice_length (Nat.sub_le _ _)] at this
    unfold Attributes.scanQuote
    simp only [hs1, hf]
    by_cases hb : ((listSlice s.bytes sv0 (s.bytes.length - 1)).getD i 0 == 39
        || (listSlice s.bytes sv0 (s.bytes.length - 1)).getD i 0 == 34) = true
    · rw [if_pos hb]
      exact scanValueEnd_tailOut s c sk ek _ _ hske (by omega) (by omega)
    · rw [if_neg hb]
      exact Or.inr (Or.inl ⟨Error.UnquotedValue (sv0 + i), rfl⟩)

theorem scanValue_tailOut (s : Attributes) (c : List (Nat × Nat)) (sk ek : Nat)
    (hske : sk ≤ ek) (hekl : ek ≤ s.bytes.length - 1) :
    tailOut s c sk ek (Attributes.scanValue s c sk ek) := by
  have hs1 : sliceR s.bytes ek (s.bytes.length - 1)
      = some (listSlice s.bytes ek (s.bytes.length - 1)) :=
    sliceR_eq_some hekl (Nat.sub_le _ _)
  rcases hf : (listSlice s.bytes ek (s.bytes.length - 1)).findIdx?
      (fun b => b == 61) with _ | m
  · unfold Attributes.scanValue
    simp only [hs1, hf]
    exact Or.inl rfl
  · have hm : m < (s.bytes.length - 1) - ek := by
      have := (findIdx?_facts hf).1
      rwa [listSlice_length (Nat.sub_le _ _)] at this
    unfold Attributes.scanValue
    simp only [hs1, hf]
    by_cases hwc : s.with_checks = true
    · rw [if_pos hwc, sliceR_eq_some (show ek ≤ ek + 1 + m - 1 by omega) (show ek + 1 + m - 1 ≤ s.bytes.length by omega)]
      rcases hf2 : (listSlice s.bytes ek (ek + 1 + m - 1)).findIdx?
          (fun b => !is_whitespace b) with _ | i
      · simp only [hf2]
        exact scanQuote_tailOut s c sk ek _ hske (by omega) (by omega)
      · simp only [hf2]
        exact Or.inr (Or.inl ⟨Error.NoEqAfterName (ek + i), rfl⟩)
    · rw [if_neg hwc]
      exact scanQuote_tailOut s c sk ek _ hske (by omega) (by omega)

theorem checksStage_shape (s : Attributes) (sk ek : Nat)
    (hske : sk < ek) (hekl : ek ≤ s.bytes.length - 1) :
    (∃ c, consOk s c ∧
      (s.with_checks = true → ∀ b ∈ listSlice s.bytes sk ek, (b == 39 || b == 34) = false) ∧
      tailOut s c sk ek (Attributes.checksStage s sk ek)) ∨
    (∃ e, Attributes.checksStage s sk ek
        = some (Step.item (Except.error e), { s with exit := true })) ∨
    (Attributes.checksStage s sk ek = none ∧
      ∃ r ∈ s.consumed, ¬(r.1 ≤ r.2 ∧ r.2 ≤ s.bytes.length)) := by
  by_cases hwc : s.with_checks = true
  · have hs1 : sliceR s.bytes sk ek = some (listSlice s.bytes sk ek) :=
      sliceR_eq_some hske.le (by omega)
    unfold Attributes.checksStage
    rw [if_pos hwc]
    simp only [hs1]
    rcases hq : (listSlice s.bytes sk ek).findIdx? (fun b => b == 39 || b == 34) with _ | i
    · simp only [hq]
      rcases hd : findDup s.bytes (listSlice s.bytes sk ek) s.consumed with _ | (_ | r)
      · simp only [hd]
        exact Or.inr (Or.inr ⟨by trivial, findDup_none_bad hd⟩)
      · simp only [hd]
        refine Or.inl ⟨s.consumed ++ [(sk, ek)], Or.inr ⟨sk, ek, rfl, hske, by omega⟩, ?_, ?_⟩
        · exact fun _ b hb => List.findIdx?_eq_none_iff.mp hq b hb
        · exact scanValue_tailOut s _ sk ek hske.le hekl
      · simp only [hd]
        exact Or.inr (Or.inl ⟨Error.DuplicatedAttribute sk r.1, rfl⟩)
    · simp only [hq]
      exact Or.inr (Or.inl ⟨Error.NameWithQuote (sk + i), rfl⟩)
  · unfold Attributes.checksStage
    rw [if_neg hwc]
    exact Or.inl ⟨s.consumed, Or.inl rfl, fun h => absurd h hwc,
      scanValue_tailOut s _ sk ek hske.le hekl⟩

/-! ### The master characterisation of one call of `next` -/

/-- All facts delivered by a successful emission: span ordering and bounds,
the key and value slices, the non-empty quote-free key, and the whitespace
byte preceding the name. -/
def okFacts (s : Attributes) (a : Attribute) (sp : Span) : Prop :=
  s.position < sp.start_key ∧
  sp.start_key < sp.end_key ∧
  sp.end_key < sp.start_val ∧
  sp.start_val ≤ sp.end_val ∧
  sp.end_val < s.bytes.length ∧
  a.key = listSlice s.bytes sp.start_key sp.end_key ∧
  a.value = listSlice s.bytes sp.start_val sp.end_val ∧
  a.key ≠ [] ∧
  is_whitespace (s.bytes.getD (sp.start_key - 1) 0) = true ∧
  (s.with_checks = true → ∀ b ∈ a.key, (b == 39 || b == 34) = false)

/-- The complete case analysis of `Attributes.next`. -/
def nextOut (s : Attributes) : Prop :=
  (s.exit = true ∧ Attributes.next s = some (Step.done, s)) ∨
  (s.exit = false ∧ s.bytes.length ≤ s.position ∧ Attributes.next s = some (Step.done, s)) ∨
  (s.exit = false ∧ s.position < s.bytes.length ∧
    ((∃ c, consOk s c ∧
        Attributes.next s
          = some (Step.done, { s with position := s.bytes.length, consumed := c })) ∨
     (∃ e c, consOk s c ∧
        Attributes.next s
          = some (Step.item (Except.error e), { s with exit := true, consumed := c })) ∨
     (∃ a sp c, consOk s c ∧ okFacts s a sp ∧
        Attributes.next s
          = some (Step.item (Except.ok (a, sp)),
                  { s with position := sp.end_val + 1, consumed := c })) ∨
     (Attributes.next s = none ∧
        ∃ r ∈ s.consumed, ¬(r.1 ≤ r.2 ∧ r.2 ≤ s.bytes.length))))

theorem next_shape (s : Attributes) : nextOut s := by
  by_cases hex : s.exit = true
  · exact Or.inl ⟨hex, by unfold Attributes.next; rw [if_pos hex]⟩
  · have hex' : s.exit = false := by simpa using hex
    by_cases hp : s.bytes.length ≤ s.position
    · refine Or.inr (Or.inl ⟨hex', hp, ?_⟩)
      unfold Attributes.next
      rw [if_neg hex]
      dsimp only
      rw [if_pos hp]
    · push_neg at hp
      refine Or.inr (Or.inr ⟨hex', hp, ?_⟩)
      have hs1 : sliceR s.bytes s.position (s.bytes.length - 1)
          = some (listSlice s.bytes s.position (s.bytes.length - 1)) :=
        sliceR_eq_some (by omega) (Nat.sub_le _ _)
      rcases hf1 : (listSlice s.bytes s.position (s.bytes.length - 1)).findIdx?
          (fun b => is_whitespace b) with _ | i
      · refine Or.inl ⟨s.consumed, Or.inl rfl, ?_⟩
        unfold Attributes.next
        rw [if_neg hex]
        dsimp only
        rw [if_neg (not_le.mpr hp)]
        simp only [hs1, hf1]
      · have hi : i < (s.bytes.length - 1) - s.position := by
          have := (findIdx?_facts hf1).1
          rwa [listSlice_length (Nat.sub_le _ _)] at this
        have hs2 : sliceR s.bytes (s.position + i + 1) (s.bytes.length - 1)
            = some (listSlice s.bytes (s.position + i + 1) (s.bytes.length - 1)) :=
          sliceR_eq_some (by omega) (Nat.sub_le _ _)
        rcases hf2 : (listSlice s.bytes (s.position + i + 1) (s.bytes.length - 1)).findIdx?
            (fun b => !is_whitespace b) with _ | j
        · refine Or.inl ⟨s.consumed, Or.inl rfl, ?_⟩
          unfold Attributes.next
          rw [if_neg hex]
          dsimp only
          rw [if_neg (not_le.mpr hp)]
          simp only [hs1, hf1, hs2, hf2]
        · have hj : j < (s.bytes.length - 1) - (s.position + i + 1) := by
            have := (findIdx?_facts hf2).1
            rwa [listSlice_length (Nat.sub_le _ _)] at this
          have hs3 : sliceR s.bytes (s.position + i + 1 + j + 1) (s.bytes.length - 1)
              = some (listSlice s.bytes (s.position + i + 1 + j + 1) (s.bytes.length - 1)) :=
            sliceR_eq_some (by omega) (Nat.sub_le _ _)
          rcases hf3 : (listSlice s.bytes (s.position + i + 1 + j + 1)
              (s.bytes.length - 1)).findIdx?
              (fun b => b == 61 || is_whitespace b) with _ | k
          · refine Or.inl ⟨s.consumed, Or.inl rfl, ?_⟩
            unfold Attributes.next
            rw [if_neg hex]
            dsimp only
            rw [if_neg (not_le.mpr hp)]
            simp only [hs1, hf1, hs2, hf2, hs3, hf3]
          · have hk : k < (s.bytes.length - 1) - (s.position + i + 1 + j + 1) := by
              have := (findIdx?_facts hf3).1
              rwa [listSlice_length (Nat.sub_le _ _)] at this
            have hnext : Attributes.next s
                = Attributes.checksStage s (s.position + i + 1 + j)
                    (s.position + i + 1 + j + 1 + k) := by
              unfold Attributes.next
              rw [if_neg hex]
              dsimp only
              rw [if_neg (not_le.mpr hp)]
              simp only [hs1, hf1, hs2, hf2, hs3, hf3]
            have hws : is_whitespace (s.bytes.getD (s.position + i + 1 + j - 1) 0) = true := by
              rcases Nat.eq_zero_or_pos j with hj0 | hj0
              · subst hj0
                have h1 := (findIdx?_facts hf1).2.1
                rwa [listSlice_getD (by omega)] at h1
              · have h2 := (findIdx?_facts hf2).2.2 (j - 1) (by omega)
                rw [listSlice_getD (by omega)] at h2
                have : s.position + i + 1 + (j - 1) = s.position + i + 1 + j - 1 := by omega
                rw [this] at h2
                simpa using h2
            rcases checksStage_shape s (s.position + i + 1 + j) (s.position + i + 1 + j + 1 + k)
                (by omega) (by omega) with ⟨c, hcons, hnq, htail⟩ | ⟨e, herr⟩ | ⟨hnone, hbad⟩
            · rcases htail with hdone | ⟨e, herr⟩ | ⟨sv, ev, h1, h2, h3, hok⟩
              · exact Or.inl ⟨c, hcons, by rw [hnext, hdone]⟩
              · exact Or.inr (Or.inl ⟨e, c, hcons, by rw [hnext, herr]⟩)
              · refine Or.inr (Or.inr (Or.inl
                  ⟨⟨listSlice s.bytes (s.position + i + 1 + j) (s.position + i + 1 + j + 1 + k),
                    listSlice s.bytes sv ev⟩,
                   ⟨s.position + i + 1 + j, s.position + i + 1 + j + 1 + k, sv, ev⟩, c, hcons,
                   ?_, by rw [hnext, hok]⟩))
                refine ⟨by dsimp only; omega, by dsimp only; omega, h1, h2, h3, rfl, rfl,
                  ?_, hws, hnq⟩
                have hl : (listSlice s.bytes (s.position + i + 1 + j)
                    (s.position + i + 1 + j + 1 + k)).length
                    = (s.position + i + 1 + j + 1 + k) - (s.position + i + 1 + j) :=
                  listSlice_length (by omega)
                intro hnil
                dsimp only at hnil
                rw [hnil] at hl
                simp at hl
                omega
            · exact Or.inr (Or.inl ⟨e, s.consumed, Or.inl rfl, by rw [hnext, herr]⟩)
            · exact Or.inr (Or.inr (Or.inr ⟨hnext.trans hnone, hbad⟩))

/-! ### Terminal behaviour of `next` -/

theorem next_of_exit {s : Attributes} (h : s.exit = true) :
    Attributes.next s = some (Step.done, s) := by
  unfold Attributes.next
  rw [if_pos h]

theorem next_of_past_end {s : Attributes} (h : s.bytes.length ≤ s.position) :
    Attributes.next s = some (Step.done, s) := by
  unfold Attributes.next
  by_cases hex : s.exit = true
  · rw [if_pos hex]
  · rw [if_neg hex]
    dsimp only
    rw [if_pos h]

/-- C2: calling `next` after any terminal result is idempotent: an error
return sets `exit` immediately and every later call returns end-of-sequence;
an end-of-sequence return leaves the scanner returning end-of-sequence with
an unchanged state, for every buffer, start offset and uniqueness-flag
setting. -/
theorem next_terminal_idempotent (s s' : Attributes) :
    (∀ e, Attributes.next s = some (Step.item (Except.error e), s') →
      s'.exit = true ∧ Attributes.next s' = some (Step.done, s')) ∧
    (Attributes.next s = some (Step.done, s') →
      Attributes.next s' = some (Step.done, s')) := by
  constructor
  · intro e h
    rcases next_shape s with ⟨hx, hn⟩ | ⟨hx, hl, hn⟩ | ⟨hx, hl, hc⟩
    · rw [h] at hn; simp at hn
    · rw [h] at hn; simp at hn
    · rcases hc with ⟨c, hcons, hn⟩ | ⟨e', c, hcons, hn⟩ | ⟨a, sp, c, hcons, hfacts, hn⟩ |
        ⟨hn, hbad⟩
      · rw [h] at hn; simp at hn
      · rw [h] at hn
        simp only [Option.some.injEq, Prod.mk.injEq] at hn
        obtain ⟨-, hs'⟩ := hn
        subst hs'
        exact ⟨rfl, next_of_exit rfl⟩
      · rw [h] at hn; simp at hn
      · rw [h] at hn; simp at hn
  · intro h
    rcases next_shape s with ⟨hx, hn⟩ | ⟨hx, hl, hn⟩ | ⟨hx, hl, hc⟩
    · rw [h] at hn
      simp only [Option.some.injEq, Prod.mk.injEq] at hn
      obtain ⟨-, hs'⟩ := hn
      subst hs'
      exact next_of_exit hx
    · rw [h] at hn
      simp only [Option.some.injEq, Prod.mk.injEq] at hn
      obtain ⟨-, hs'⟩ := hn
      subst hs'
      exact next_of_past_end hl
    · rcases hc with ⟨c, hcons, hn⟩ | ⟨e', c, hcons, hn⟩ | ⟨a, sp, c, hcons, hfacts, hn⟩ |
        ⟨hn, hbad⟩
      · rw [h] at hn
        simp only [Option.some.injEq, Prod.mk.injEq] at hn
        obtain ⟨-, hs'⟩ := hn
        subst hs'
        exact next_of_past_end (le_refl _)
      · rw [h] at hn; simp at hn
      · rw [h] at hn; simp at hn
      · rw [h] at hn; simp at hn

/-- Witness for C2: a concrete error step (scanning ` a=1 `) whose follow-up
state is terminal, and a concrete end-of-sequence step that repeats itself. -/
theorem next_terminal_idempotent_witness :
    ((⟨[32, 97, 61, 49, 32], 0, true, true, [(1, 2)]⟩ : Attributes).exit = true ∧
      Attributes.next ⟨[32, 97, 61, 49, 32], 0, true, true, [(1, 2)]⟩
        = some (Step.done, ⟨[32, 97, 61, 49, 32], 0, true, true, [(1, 2)]⟩)) ∧
    Attributes.next (Attributes.new [] 0) = some (Step.done, Attributes.new [] 0) :=
  ⟨(next_terminal_idempotent (Attributes.new [32, 97, 61, 49, 32] 0)
      ⟨[32, 97, 61, 49, 32], 0, true, true, [(1, 2)]⟩).1 (Error.UnquotedValue 3) rfl,
   (next_terminal_idempotent (Attributes.new [] 0) (Attributes.new [] 0)).2 rfl⟩

theorem consOk_inv {s : Attributes} {c : List (Nat × Nat)} (h : InvCons s) (hc : consOk s c) :
    ∀ r ∈ c, r.1 ≤ r.2 ∧ r.2 ≤ s.bytes.length := by
  rcases hc with rfl | ⟨sk, ek, rfl, h1, h2⟩
  · exact h
  · intro r hr
    rcases List.mem_append.mp hr with hr | hr
    · exact h r hr
    · simp only [List.mem_singleton] at hr
      subst hr
      exact ⟨le_of_lt h1, h2⟩

/-- C9: `next` never indexes out of bounds: on every state whose recorded
name ranges are in bounds (which holds for every state the constructor can
produce, with any start offset and flag setting, and is preserved by every
call), `next` returns a value rather than panicking; a start offset past the
buffer length is accepted by the constructor and makes `next` return
end-of-sequence immediately. -/
theorem next_total_in_bounds (s : Attributes) (h : InvCons s) :
    (Attributes.next s).isSome = true ∧
    (∀ st s', Attributes.next s = some (st, s') → InvCons s') ∧
    (∀ buf pos, InvCons (Attributes.new buf pos)) ∧
    (∀ buf pos, buf.length < pos →
      Attributes.next (Attributes.new buf pos) = some (Step.done, Attributes.new buf pos)) := by
  refine ⟨?_, ?_, ?_, ?_⟩
  · rcases next_shape s with ⟨hx, hn⟩ | ⟨hx, hl, hn⟩ | ⟨hx, hl, hc⟩
    · rw [hn]; rfl
    · rw [hn]; rfl
    · rcases hc with ⟨c, hcons, hn⟩ | ⟨e, c, hcons, hn⟩ | ⟨a, sp, c, hcons, hfacts, hn⟩ |
        ⟨hn, hbad⟩
      · rw [hn]; rfl
      · rw [hn]; rfl
      · rw [hn]; rfl
      · exact absurd (h _ (hbad.choose_spec.1)) (hbad.choose_spec.2)
  · intro st s' hst
    rcases next_shape s with ⟨hx, hn⟩ | ⟨hx, hl, hn⟩ | ⟨hx, hl, hc⟩
    · rw [hst] at hn
      simp only [Option.some.injEq, Prod.mk.injEq] at hn
      obtain ⟨-, hs'⟩ := hn
      subst hs'
      exact h
    · rw [hst] at hn
      simp only [Option.some.injEq, Prod.mk.injEq] at hn
      obtain ⟨-, hs'⟩ := hn
      subst hs'
      exact h
    · rcases hc with ⟨c, hcons, hn⟩ | ⟨e, c, hcons, hn⟩ | ⟨a, sp, c, hcons, hfacts, hn⟩ |
        ⟨hn, hbad⟩
      · rw [hst] at hn
        simp only [Option.some.injEq, Prod.mk.injEq] at hn
        obtain ⟨-, hs'⟩ := hn
        subst hs'
        intro r hr
        exact consOk_inv h hcons r hr
      · rw [hst] at hn
        simp only [Option.some.injEq, Prod.mk.injEq] at hn
        obtain ⟨-, hs'⟩ := hn
        subst hs'
        intro r hr
        exact consOk_inv h hcons r hr
      · rw [hst] at hn
        simp only [Option.some.injEq, Prod.mk.injEq] at hn
        obtain ⟨-, hs'⟩ := hn
        subst hs'
        intro r hr
        exact consOk_inv h hcons r hr
      · rw [hst] at hn; simp at hn
  · intro buf pos r hr
    simp [Attributes.new] at hr
  · intro buf pos hlt
    exact next_of_past_end (le_of_lt hlt)

/-- Witness for C9 at a concrete scanner and a concrete out-of-range offset. -/
theorem next_total_in_bounds_witness :
    (Attributes.next (Attributes.new [32, 97] 0)).isSome = true ∧
    Attributes.next (Attributes.new [] 5) = some (Step.done, Attributes.new [] 5) :=
  ⟨(next_total_in_bounds (Attributes.new [32, 97] 0)
      (fun r hr => by simp [Attributes.new] at hr)).1,
   (next_total_in_bounds (Attributes.new [32, 97] 0)
      (fun r hr => by simp [Attributes.new] at hr)).2.2.2 [] 5 (by decide)⟩

/-- C4 (amended): every Attribute emitted by a successful call of `next` has
a non-empty key sliced out of the buffer; when uniqueness checks are enabled
the key never contains a quote byte.  (With checks disabled a key may contain
a quote, see the counterexample.) -/
theorem next_key_invariant (s s' : Attributes) (a : Attribute) (sp : Span)
    (h : Attributes.next s = some (Step.item (Except.ok (a, sp)), s')) :
    a.key ≠ [] ∧ a.key = listSlice s.bytes sp.start_key sp.end_key ∧
    (s.with_checks = true → ∀ b ∈ a.key, b ≠ 39 ∧ b ≠ 34) := by
  rcases next_shape s with ⟨hx, hn⟩ | ⟨hx, hl, hn⟩ | ⟨hx, hl, hc⟩
  · rw [h] at hn; simp at hn
  · rw [h] at hn; simp at hn
  · rcases hc with ⟨c, hcons, hn⟩ | ⟨e, c, hcons, hn⟩ | ⟨a0, sp0, c, hcons, hfacts, hn⟩ |
      ⟨hn, hbad⟩
    · rw [h] at hn; simp at hn
    · rw [h] at hn; simp at hn
    · rw [h] at hn
      simp only [Option.some.injEq, Prod.mk.injEq, Step.item.injEq, Except.ok.injEq] at hn
      obtain ⟨⟨ha, hsp⟩, -⟩ := hn
      subst ha
      subst hsp
      obtain ⟨-, -, -, -, -, hkey, -, hne, -, hq⟩ := hfacts
      refine ⟨hne, hkey, fun hwc b hb => ?_⟩
      have := hq hwc b hb
      simp only [Bool.or_eq_false_iff, beq_eq_false_iff_ne] at this
      exact this
    · rw [h] at hn; simp at hn

/-- Witness for C4 at the scanner over ` a='1' `. -/
theorem next_key_invariant_witness :
    ([97] : List Nat) ≠ [] ∧
    ([97] : List Nat) = listSlice [32, 97, 61, 39, 49, 39, 32] 1 2 ∧
    (true = true → ∀ b ∈ ([97] : List Nat), b ≠ 39 ∧ b ≠ 34) :=
  next_key_invariant (Attributes.new [32, 97, 61, 39, 49, 39, 32] 0)
    ⟨[32, 97, 61, 39, 49, 39, 32], 6, false, true, [(1, 2)]⟩
    ⟨[97], [49]⟩ ⟨1, 2, 4, 5⟩ rfl

/-- C4 counterexample: with uniqueness checks disabled, the scanner over
` 'b='v' ` successfully emits an Attribute whose key `[39, 98]` contains the
quote byte 39, so the unconditional claim is false. -/
theorem next_key_quote_counterexample :
    Attributes.next ((Attributes.new [32, 39, 98, 61, 39, 118, 39, 32] 0).withChecks false)
      = some (Step.item (Except.ok (⟨[39, 98], [118]⟩, ⟨1, 3, 5, 6⟩)),
              ⟨[32, 39, 98, 61, 39, 118, 39, 32], 7, false, false, []⟩) ∧
    39 ∈ ([39, 98] : List Nat) :=
  ⟨rfl, by decide⟩

/-- C10: every Attribute yielded by `next` has its name start strictly past
the cursor and preceded by a whitespace byte, so an attribute whose name
begins exactly at the start offset is never yielded; and when the scan window
`bytes[position..len-1]` contains no whitespace byte at all, the call returns
end-of-sequence with the cursor moved to the end. -/
theorem next_name_after_whitespace (s s' : Attributes) (a : Attribute) (sp : Span) :
    (Attributes.next s = some (Step.item (Except.ok (a, sp)), s') →
      s.position < sp.start_key ∧
      is_whitespace (s.bytes.getD (sp.start_key - 1) 0) = true) ∧
    (s.exit = false → s.position < s.bytes.length →
      (∀ b ∈ listSlice s.bytes s.position (s.bytes.length - 1), is_whitespace b = false) →
      Attributes.next s = some (Step.done, { s with position := s.bytes.length })) := by
  constructor
  · intro h
    rcases next_shape s with ⟨hx, hn⟩ | ⟨hx, hl, hn⟩ | ⟨hx, hl, hc⟩
    · rw [h] at hn; simp at hn
    · rw [h] at hn; simp at hn
    · rcases hc with ⟨c, hcons, hn⟩ | ⟨e, c, hcons, hn⟩ | ⟨a0, sp0, c, hcons, hfacts, hn⟩ |
        ⟨hn, hbad⟩
      · rw [h] at hn; simp at hn
      · rw [h] at hn; simp at hn
      · rw [h] at hn
        simp only [Option.some.injEq, Prod.mk.injEq, Step.item.injEq, Except.ok.injEq] at hn
        obtain ⟨⟨ha, hsp⟩, -⟩ := hn
        subst ha
        subst hsp
        obtain ⟨h1, -, -, -, -, -, -, -, hws, -⟩ := hfacts
        exact ⟨h1, hws⟩
      · rw [h] at hn; simp at hn
  · intro hex hp hnows
    have hfw : (listSlice s.bytes s.position (s.bytes.length - 1)).findIdx?
        (fun b => is_whitespace b) = none :=
      List.findIdx?_eq_none_iff.mpr hnows
    unfold Attributes.next
    rw [if_neg (by simp [hex])]
    dsimp only
    rw [if_neg (not_le.mpr hp)]
    rw [sliceR_eq_some (by omega) (Nat.sub_le _ _)]
    simp only [hfw]

/-- Witness for C10: an emission over ` a='1' ` whose name is preceded by the
leading space, and a whitespace-free window (buffer `aa`) that ends the scan. -/
theorem next_name_after_whitespace_witness :
    ((0 : Nat) < 1 ∧ is_whitespace (([32, 97, 61, 39, 49, 39, 32] : List Nat).getD 0 0) = true) ∧
    Attributes.next (Attributes.new [97, 97] 0)
      = some (Step.done, ⟨[97, 97], 2, false, true, []⟩) :=
  ⟨(next_name_after_whitespace (Attributes.new [32, 97, 61, 39, 49, 39, 32] 0)
      ⟨[32, 97, 61, 39, 49, 39, 32], 6, false, true, [(1, 2)]⟩ ⟨[97], [49]⟩ ⟨1, 2, 4, 5⟩).1 rfl,
   (next_name_after_whitespace (Attributes.new [97, 97] 0)
      (Attributes.new [97, 97] 0) ⟨[], []⟩ ⟨0, 0, 0, 0⟩).2 rfl (by decide) (by decide)⟩

/-! ### Disjointness of all spans produced by one scanner -/

/-- The spans in the list sit strictly after `lo`, are internally ordered
(key before value), stay below `len`, and each sits strictly after the
previous span's value end. -/
def goodChain (lo len : Nat) : List Span → Prop
  | [] => True
  | sp :: rest =>
    lo < sp.start_key ∧ sp.start_key < sp.end_key ∧ sp.end_key < sp.start_val ∧
    sp.start_val ≤ sp.end_val ∧ sp.end_val < len ∧ goodChain (sp.end_val + 1) len rest

theorem spans_goodChain (n : Nat) (s : Attributes) :
    goodChain s.position s.bytes.length (Attributes.spans s n) := by
  induction n generalizing s with
  | zero => trivial
  | succ n ih =>
    rcases next_shape s with ⟨hx, hn⟩ | ⟨hx, hl, hn⟩ | ⟨hx, hl, hc⟩
    · unfold Attributes.spans
      simp only [hn]
      trivial
    · unfold Attributes.spans
      simp only [hn]
      trivial
    · rcases hc with ⟨c, hcons, hn⟩ | ⟨e, c, hcons, hn⟩ | ⟨a, sp, c, hcons, hfacts, hn⟩ |
        ⟨hn, hbad⟩
      · unfold Attributes.spans
        simp only [hn]
        trivial
      · unfold Attributes.spans
        simp only [hn]
        trivial
      · unfold Attributes.spans
        simp only [hn]
        obtain ⟨h1, h2, h3, h4, h5, -, -, -, -, -⟩ := hfacts
        exact ⟨h1, h2, h3, h4, h5,
          ih { s with position := sp.end_val + 1, consumed := c }⟩
      · unfold Attributes.spans
        simp only [hn]
        trivial

theorem goodChain_forall {len : Nat} : ∀ {lo : Nat} {l : List Span}, goodChain lo len l →
    ∀ sp ∈ l, lo < sp.start_key ∧ sp.start_key < sp.end_key ∧ sp.end_key < sp.start_val ∧
      sp.start_val ≤ sp.end_val ∧ sp.end_val < len := by
  intro lo l
  induction l generalizing lo with
  | nil =>
    intro _ sp hsp
    simp at hsp
  | cons x rest ih =>
    intro h sp hsp
    obtain ⟨h1, h2, h3, h4, h5, hrest⟩ := h
    rcases List.mem_cons.mp hsp with rfl | hsp
    · exact ⟨h1, h2, h3, h4, h5⟩
    · have hx := ih hrest sp hsp
      exact ⟨by omega, hx.2.1, hx.2.2.1, hx.2.2.2.1, hx.2.2.2.2⟩

theorem goodChain_pairwise {len : Nat} : ∀ {lo : Nat} {l : List Span}, goodChain lo len l →
    List.Pairwise (fun x y => x.end_val < y.start_key) l := by
  intro lo l
  induction l generalizing lo with
  | nil => intro _; exact List.Pairwise.nil
  | cons x rest ih =>
    intro h
    obtain ⟨h1, h2, h3, h4, h5, hrest⟩ := h
    refine List.Pairwise.cons (fun y hy => ?_) (ih hrest)
    have hx := goodChain_forall hrest y hy
    omega

/-- C6: for every buffer, start offset and iteration count, the spans of the
successfully yielded Attributes form an ordered chain: every key range ends
before its value range, consecutive spans are separated by the cursor, all
spans are pairwise non-overlapping, and every span lies strictly within
`[start_offset, buffer.length)` (in fact strictly after `start_offset`). -/
theorem spans_disjoint_within_bounds (buf : List Nat) (off n : Nat) :
    goodChain off buf.length (Attributes.spans (Attributes.new buf off) n) ∧
    List.Pairwise (fun x y => x.end_val < y.start_key)
      (Attributes.spans (Attributes.new buf off) n) ∧
    ∀ sp ∈ Attributes.spans (Attributes.new buf off) n,
      off < sp.start_key ∧ sp.start_key < sp.end_key ∧ sp.end_key < sp.start_val ∧
      sp.start_val ≤ sp.end_val ∧ sp.end_val < buf.length := by
  have h := spans_goodChain n (Attributes.new buf off)
  exact ⟨h, goodChain_pairwise h, goodChain_forall h⟩

/-! ### The escape round trip -/

theorem unescape_cons_ne (b : Nat) (l : List Nat) (h : ¬b = 38) :
    unescape (b :: l) = (unescape l).map (fun t => b :: t) := by
  simp [unescape, h]

theorem unescape_escape (v : List Nat) : unescape (escape v) = some v := by
  induction v with
  | nil => rfl
  | cons b rest ih =>
    by_cases h38 : b = 38
    · subst h38
      show (unescape (escape rest)).map (fun t => 38 :: t) = some (38 :: rest)
      rw [ih]
      rfl
    · by_cases h60 : b = 60
      · subst h60
        show (unescape (escape rest)).map (fun t => 60 :: t) = some (60 :: rest)
        rw [ih]
        rfl
      · by_cases h62 : b = 62
        · subst h62
          show (unescape (escape rest)).map (fun t => 62 :: t) = some (62 :: rest)
          rw [ih]
          rfl
        · by_cases h39 : b = 39
          · subst h39
            show (unescape (escape rest)).map (fun t => 39 :: t) = some (39 :: rest)
            rw [ih]
            rfl
          · by_cases h34 : b = 34
            · subst h34
              show (unescape (escape rest)).map (fun t => 34 :: t) = some (34 :: rest)
              rw [ih]
              rfl
            · have hb : escape_byte b = [b] := by
                simp [escape_byte, h38, h60, h62, h39, h34]
              have h1 : escape (b :: rest) = b :: escape rest := by
                show escape_byte b ++ escape rest = b :: escape rest
                rw [hb]
                rfl
              rw [h1, unescape_cons_ne b _ h38, ih]
              rfl

/-- C8: the text constructor escapes the value and only the value, and
unescaping that value restores the original text exactly, for every key and
value; concretely, unescaping `val &amp; more` yields `val & more`. -/
theorem attribute_text_roundtrip :
    (∀ k v, (Attribute.from_text k v).key = k ∧
      (Attribute.from_text k v).unescaped_value = some v) ∧
    unescape [118, 97, 108, 32, 38, 97, 109, 112, 59, 32, 109, 111, 114, 101]
      = some [118, 97, 108, 32, 38, 32, 109, 111, 114, 101] :=
  ⟨fun _ v => ⟨rfl, unescape_escape v⟩, rfl⟩

/-! ### Concrete scans -/

/-- C1 counterexample: over `a='1' b="2" c='3'` at start offset 0 the scanner
yields only two Attributes, with keys `b` and `c` — the attribute `a='1'`
sitting exactly at the start offset is skipped because the scan first seeks a
whitespace byte — so the claimed three yields `a`,`b`,`c` are false. -/
theorem scan_three_attrs_counterexample :
    Attributes.run (Attributes.new
        [97, 61, 39, 49, 39, 32, 98, 61, 34, 50, 34, 32, 99, 61, 39, 51, 39] 0) 10
      = [Except.ok (⟨[98], [50]⟩, ⟨6, 7, 9, 10⟩),
         Except.ok (⟨[99], [51]⟩, ⟨12, 13, 15, 16⟩)] := rfl

/-- C1 (amended): over ` a='1' b="2" c='3'` — a leading whitespace byte so
that every attribute name is preceded by whitespace — the scanner at offset 0
yields exactly three Attributes with keys `a`,`b`,`c` and raw borrowed values
`1`,`2`,`3`, with weakly increasing start positions, followed by
end-of-sequence. -/
theorem scan_three_attrs :
    Attributes.run (Attributes.new
        [32, 97, 61, 39, 49, 39, 32, 98, 61, 34, 50, 34, 32, 99, 61, 39, 51, 39] 0) 10
      = [Except.ok (⟨[97], [49]⟩, ⟨1, 2, 4, 5⟩),
         Except.ok (⟨[98], [50]⟩, ⟨7, 8, 10, 11⟩),
         Except.ok (⟨[99], [51]⟩, ⟨13, 14, 16, 17⟩)] ∧
    List.Chain' (fun x y => x.start_key ≤ y.start_key)
      (Attributes.spans (Attributes.new
        [32, 97, 61, 39, 49, 39, 32, 98, 61, 34, 50, 34, 32, 99, 61, 39, 51, 39] 0) 10) ∧
    Attributes.next (Attributes.stateN (Attributes.new
        [32, 97, 61, 39, 49, 39, 32, 98, 61, 34, 50, 34, 32, 99, 61, 39, 51, 39] 0) 3)
      = some (Step.done, Attributes.stateN (Attributes.new
        [32, 97, 61, 39, 49, 39, 32, 98, 61, 34, 50, 34, 32, 99, 61, 39, 51, 39] 0) 3) :=
  ⟨rfl, by
    show List.Chain' (fun x y => x.start_key ≤ y.start_key)
      ([⟨1, 2, 4, 5⟩, ⟨7, 8, 10, 11⟩, ⟨13, 14, 16, 17⟩] : List Span)
    simp [List.chain'_cons], rfl⟩

/-- C3 counterexample: over `a='1' a='2'` at start offset 0 with uniqueness
checks enabled, the scanner yields a single successful Attribute (the second
`a`, the first being skipped at the start offset) and then end-of-sequence:
no `DuplicatedAttribute` error is ever produced, so the claim is false. -/
theorem scan_duplicate_counterexample :
    Attributes.run (Attributes.new [97, 61, 39, 49, 39, 32, 97, 61, 39, 50, 39] 0) 10
      = [Except.ok (⟨[97], [50]⟩, ⟨6, 7, 9, 10⟩)] ∧
    Attributes.next (Attributes.stateN
        (Attributes.new [97, 61, 39, 49, 39, 32, 97, 61, 39, 50, 39] 0) 1)
      = some (Step.done, Attributes.stateN
        (Attributes.new [97, 61, 39, 49, 39, 32, 97, 61, 39, 50, 39] 0) 1) :=
  ⟨rfl, rfl⟩

/-- C3 (amended): over ` a='1' a='2'` (names preceded by whitespace) with
uniqueness checks enabled, the second call of `next` yields
`DuplicatedAttribute` carrying the current name start 7 and the first-seen
name start 1, the scanner becomes exhausted, and no third Attribute is ever
produced. -/
theorem scan_duplicate :
    Attributes.run (Attributes.new [32, 97, 61, 39, 49, 39, 32, 97, 61, 39, 50, 39] 0) 10
      = [Except.ok (⟨[97], [49]⟩, ⟨1, 2, 4, 5⟩),
         Except.error (Error.DuplicatedAttribute 7 1)] ∧
    (Attributes.stateN
        (Attributes.new [32, 97, 61, 39, 49, 39, 32, 97, 61, 39, 50, 39] 0) 2).exit = true ∧
    Attributes.next (Attributes.stateN
        (Attributes.new [32, 97, 61, 39, 49, 39, 32, 97, 61, 39, 50, 39] 0) 2)
      = some (Step.done, Attributes.stateN
        (Attributes.new [32, 97, 61, 39, 49, 39, 32, 97, 61, 39, 50, 39] 0) 2) :=
  ⟨rfl, rfl, rfl⟩

/-- C7 counterexample: over `a='1' a='2'` at start offset 0 with uniqueness
checks disabled, only one Attribute is yielded (the second `a`, with value
`2`), not two with values `1` then `2`, so the claim is false. -/
theorem scan_nodup_counterexample :
    Attributes.run
        ((Attributes.new [97, 61, 39, 49, 39, 32, 97, 61, 39, 50, 39] 0).withChecks false) 10
      = [Except.ok (⟨[97], [50]⟩, ⟨6, 7, 9, 10⟩)] := rfl

/-- C7 (amended): over ` a='1' a='2'` (names preceded by whitespace) with
uniqueness checks disabled, both Attributes are yielded successfully with
byte-equal keys `a` and values `1` then `2`, and no error is ever produced:
the next call returns end-of-sequence. -/
theorem scan_nodup :
    Attributes.run
        ((Attributes.new [32, 97, 61, 39, 49, 39, 32, 97, 61, 39, 50, 39] 0).withChecks false) 10
      = [Except.ok (⟨[97], [49]⟩, ⟨1, 2, 4, 5⟩),
         Except.ok (⟨[97], [50]⟩, ⟨7, 8, 10, 11⟩)] ∧
    Attributes.next (Attributes.stateN
        ((Attributes.new [32, 97, 61, 39, 49, 39, 32, 97, 61, 39, 50, 39] 0).withChecks false) 2)
      = some (Step.done, Attributes.stateN
        ((Attributes.new [32, 97, 61, 39, 49, 39, 32, 97, 61, 39, 50, 39] 0).withChecks false) 2) :=
  ⟨rfl, rfl⟩

/-- C5 counterexample: over `a=1` at start offset 0 the call of `next`
returns end-of-sequence, not `UnquotedValue`: the name `a` is not preceded by
whitespace and the `1` occupies the reserved final byte, so the claimed error
at the offset of `1` is false. -/
theorem unquoted_value_counterexample :
    Attributes.next (Attributes.new [97, 61, 49] 0)
      = some (Step.done, ⟨[97, 61, 49], 3, false, true, []⟩) := rfl

/-- C5 (amended): over ` a=`, then any non-whitespace byte other than `'` and
`"`, then a trailing byte (so the value byte sits inside the scan window and
`a` is preceded by whitespace), `next` yields `UnquotedValue` carrying the
absolute offset 3 of that byte, and the scanner is exhausted. -/
theorem unquoted_value (b : Nat) (hw : is_whitespace b = false)
    (h39 : ¬b = 39) (h34 : ¬b = 34) :
    Attributes.next (Attributes.new [32, 97, 61, b, 32] 0)
      = some (Step.item (Except.error (Error.UnquotedValue 3)),
              ⟨[32, 97, 61, b, 32], 0, true, true, [(1, 2)]⟩) := by
  show Attributes.scanQuote ⟨[32, 97, 61, b, 32], 0, false, true, []⟩ [(1, 2)] 1 2 3
      = some (Step.item (Except.error (Error.UnquotedValue 3)),
              ⟨[32, 97, 61, b, 32], 0, true, true, [(1, 2)]⟩)
  have e5 : sliceR ([32, 97, 61, b, 32] : List Nat) 3
      (([32, 97, 61, b, 32] : List Nat).length - 1) = some [b] := rfl
  have e6 : ([b] : List Nat).findIdx? (fun x => !is_whitespace x) = some 0 := by simp [hw]
  have e7 : ([b] : List Nat).getD 0 0 = b := rfl
  have e8 : (b == 39 || b == 34) = false := by simp [h39, h34]
  unfold Attributes.scanQuote
  simp only [e5, e6, e7, e8, Bool.false_eq_true, if_false]

/-- Witness for C5 at the byte `1` (49): scanning ` a=1 ` yields
`UnquotedValue` at offset 3, the offset of the `1`. -/
theorem unquoted_value_witness :
    Attributes.next (Attributes.new [32, 97, 61, 49, 32] 0)
      = some (Step.item (Except.error (Error.UnquotedValue 3)),
              ⟨[32, 97, 61, 49, 32], 0, true, true, [(1, 2)]⟩) :=
  unquoted_value 49 (by decide) (by decide) (by decide)
